import Mathlib

/-!
# Verification of the SalesBot notebook
(`end-to-end-use-cases/customerservice_chatbots/ai_agent_chatbot/SalesBot.ipynb`)

Shallow embedding of the notebook's local logic:

* the review-aggregation loop building `review_dict` from the CSV dataset,
* the summarization batch loop over `review_dict.items()` (LLM call and
  JSON parse modelled as an oracle returning `Option`),
* the ingestion loop batching records into `insert_many` calls of ≤ 100,
* the `get_context` helper joining hybrid-search results with newlines,
* `predict`, which formats the chat history and accumulates streamed deltas.

External services (the chat-completion endpoint, the Weaviate hybrid query,
the `insert_many` store call) are modelled as function parameters; fallible
external calls return `Option`/`Except`, a `none`/`.error` standing for a
raised Python exception.
-/

namespace SalesBot

/-- One row of `Musical_instruments_reviews.csv`: the columns the notebook
reads (`asin`, `reviewText`, `unixReviewTime`). -/
structure Review where
  asin : String
  reviewText : String
  unixReviewTime : Int
deriving DecidableEq, Repr

/-- Helper for `uniqueAsins`: keep each ASIN's first occurrence, tracking the
ASINs already seen. -/
def uniqueAsinsAux (seen : List String) : List Review → List String
  | [] => []
  | r :: rest =>
    if r.asin ∈ seen then uniqueAsinsAux seen rest
    else r.asin :: uniqueAsinsAux (r.asin :: seen) rest

/-- `df.asin.unique()`: the distinct ASINs in order of first appearance. -/
def uniqueAsins (df : List Review) : List String :=
  uniqueAsinsAux [] df

/-- The sort key of `sort_values(["unixReviewTime"], ascending=False)`:
`a` precedes `b` when `a`'s timestamp is at least `b`'s. -/
def byRecency (a b : Review) : Prop := b.unixReviewTime ≤ a.unixReviewTime

instance : DecidableRel byRecency :=
  fun a b => Int.decLe b.unixReviewTime a.unixReviewTime

instance : IsTotal Review byRecency :=
  ⟨fun a b => Int.le_total b.unixReviewTime a.unixReviewTime⟩

instance : IsTrans Review byRecency :=
  ⟨fun _ _ _ h h' => le_trans h' h⟩

/-- `df.loc[df['asin'] == asin].sort_values(["unixReviewTime"], ascending=False)`:
the rows of this product, sorted by timestamp descending. -/
def reviewsFor (df : List Review) (asin : String) : List Review :=
  (df.filter (fun r => r.asin = asin)).insertionSort byRecency

/-- The `review_dict` building loop: for each ASIN in
`asin_list[0:product_record_limit]` store its sorted reviews, in iteration
order (Python dicts preserve insertion order). -/
def reviewDict (df : List Review) (product_record_limit : Nat) :
    List (String × List Review) :=
  ((uniqueAsins df).take product_record_limit).map
    (fun asin => (asin, reviewsFor df asin))

/-! ## Part 1: the Summarizer batch loop -/

/-- The JSON object the notebook's `ProductRecord` Pydantic schema describes
and `loads` produces on success: string fields `description`, `name`,
`review_summary`, `ASIN`, `features`. -/
structure ParsedSummary where
  description : String
  name : String
  review_summary : String
  ASIN : String
  features : String
deriving DecidableEq, Repr

/-- `template.format(asin=asin, reviews=...)`: the prompt template with the
ASIN and the rendered review list substituted in. -/
def template_format (asin : String) (reviews : List String) : String :=
  "\nHere are product reviews for a music product with an ID of " ++ asin ++
  ".\n - Respond back only as only JSON!\n - Provide: the product description, " ++
  "the product name, a summary of all the reviews as review_summary, " ++
  "the ASIN and and the product features based on the content of these reviews.\n" ++
  "\nThe reviews for the product are: " ++ toString reviews ++ "\n"

/-- The user-message content of one summarization call:
`template.format(asin = asin, reviews = review_list[0:20])`. -/
def promptFor (asin : String) (review_list : List String) : String :=
  template_format asin (review_list.take 20)

/-- The summarization batch loop over `review_dict.items()`.  `llm prompt`
models `client.chat.completions.create(...)` followed by
`loads(response...content)`: `some s` is a successful call and parse,
`none` a raised exception.  On success the parsed JSON gets
`summary["ASIN"] = asin` and is appended to `review_summaries`; on failure
the product is skipped (`except: ... pass`) and the loop continues. -/
def summarizeBatch (llm : String → Option ParsedSummary) :
    List (String × List String) → List ParsedSummary
  | [] => []
  | (asin, review_list) :: rest =>
    match llm (promptFor asin review_list) with
    | some summary => { summary with ASIN := asin } :: summarizeBatch llm rest
    | none => summarizeBatch llm rest

/-! ## Part 2: ingestion into the vector store -/

/-- The dictionary `new_item` rebuilt from each record before insertion. -/
structure InsertItem where
  ASIN : String
  name : String
  description : String
  features : String
  review_summary : String
deriving DecidableEq, Repr

/-- `new_item = {"ASIN": d["ASIN"], "name": d["name"], ...}`. -/
def toInsertItem (d : ParsedSummary) : InsertItem :=
  ⟨d.ASIN, d.name, d.description, d.features, d.review_summary⟩

/-- The ingestion loop, with `buf` the current `items_to_insert` list:
append each record; when the buffer reaches 100, emit it as one
`insert_many` call and clear it; after the loop, emit the non-empty
remainder once.  Returns the argument of each `insert_many` call in call
order. -/
def ingestLoop (buf : List α) : List α → List (List α)
  | [] => if buf.length > 0 then [buf] else []
  | d :: rest =>
    if (buf ++ [d]).length = 100 then (buf ++ [d]) :: ingestLoop [] rest
    else ingestLoop (buf ++ [d]) rest

/-- All `insert_many` calls the ingestion cell makes for a record sequence
(`items_to_insert` starts empty). -/
def insertCalls (records : List α) : List (List α) := ingestLoop [] records

/-- Runs the `insert_many` calls in order against a fallible store
(`.error e` models a raised exception).  There is no `try` in the
ingestion cell, so a raise aborts the loop: the result is the list of
batches actually attempted, the list of batches successfully inserted,
and the outcome that reaches the caller. -/
def runInserts (ins : List α → Except String Unit) :
    List (List α) → List (List α) × List (List α) × Except String Unit
  | [] => ([], [], Except.ok ())
  | b :: bs =>
    match ins b with
    | Except.ok _ =>
      let r := runInserts ins bs
      (b :: r.1, b :: r.2.1, r.2.2)
    | Except.error e => ([b], [], Except.error e)

/-! ## `get_context` and the interactive `predict` -/

/-- One object of a hybrid-query response; `properties` is the textual dump
`str(o.properties)`. -/
structure QueryObject where
  properties : String
deriving DecidableEq, Repr

/-- Python's `"\n".join`. -/
def joinNl : List String → String
  | [] => ""
  | [s] => s
  | s :: rest => s ++ "\n" ++ joinNl rest

/-- `get_context(question, limit)`: one `collection.query.hybrid` call
(modelled by the `query` parameter), then
`"\n".join([str(o.properties) for o in response.objects])`. -/
def get_context (query : String → Nat → List QueryObject)
    (question : String) (limit : Nat) : String :=
  joinNl ((query question limit).map (fun o => o.properties))

/-- One `{"role": ..., "content": ...}` message of a chat-completion request. -/
structure Message where
  role : String
  content : String
deriving DecidableEq, Repr

/-- `sales_template.format(question, context)`. -/
def sales_template_format (question context : String) : String :=
  "\nYou are a sales assistant. Answer the user questions as helpfully as " ++
  "possible.\nOnly recommend the products that are provided in the context " ++
  "provided below.\n\nProvide a reference to each product you mention with " ++
  "hyperlinks.\n\nFinish with a references section.\n\nCustomer question: " ++
  question ++ "\n\nProduct context: " ++ context ++ "\n\nAI:\n"

/-- The history-formatting loop of `predict`: each prior `(human, assistant)`
pair contributes a user message then an assistant message. -/
def historyOpenaiFormat : List (String × String) → List Message
  | [] => []
  | (human, assistant) :: rest =>
    ⟨"user", human⟩ :: ⟨"assistant", assistant⟩ :: historyOpenaiFormat rest

/-- The full message list `predict` sends: the formatted history followed by
the new user turn `sales_template.format(message, get_context(message, limit=5))`. -/
def predictMessages (query : String → Nat → List QueryObject)
    (message : String) (history : List (String × String)) : List Message :=
  historyOpenaiFormat history ++
    [⟨"user", sales_template_format message (get_context query message 5)⟩]

/-- The streaming accumulation of `predict`, with `acc` the current
`partial_message`: for each chunk whose `delta.content` is not `None`
(`some c`), append `c` and yield the accumulated string; `none` chunks
yield nothing. -/
def streamGo (acc : String) : List (Option String) → List String
  | [] => []
  | some c :: rest => (acc ++ c) :: streamGo (acc ++ c) rest
  | none :: rest => streamGo acc rest

/-- All values `predict` yields for a finite chunk sequence
(`partial_message` starts `""`). -/
def streamYields (chunks : List (Option String)) : List String :=
  streamGo "" chunks

/-! ## Helper lemmas -/

theorem summarizeBatch_cons (llm : String → Option ParsedSummary)
    (asin : String) (review_list : List String)
    (rest : List (String × List String)) :
    summarizeBatch llm ((asin, review_list) :: rest)
      = (match llm (promptFor asin review_list) with
         | some summary => { summary with ASIN := asin } :: summarizeBatch llm rest
         | none => summarizeBatch llm rest) := rfl

theorem summarizeBatch_eq_filterMap (llm : String → Option ParsedSummary)
    (dict : List (String × List String)) :
    summarizeBatch llm dict
      = dict.filterMap
          (fun p => (llm (promptFor p.1 p.2)).map
            (fun s => { s with ASIN := p.1 })) := by
  induction dict with
  | nil => rfl
  | cons p rest ih =>
    obtain ⟨asin, review_list⟩ := p
    rw [summarizeBatch_cons, List.filterMap_cons]
    cases h : llm (promptFor asin review_list) with
    | none => simpa [h] using ih
    | some s => simpa [h] using ih

theorem summarizeBatch_length (llm : String → Option ParsedSummary)
    (dict : List (String × List String)) :
    (summarizeBatch llm dict).length
      = (dict.filter (fun p => (llm (promptFor p.1 p.2)).isSome)).length := by
  induction dict with
  | nil => rfl
  | cons p rest ih =>
    obtain ⟨asin, review_list⟩ := p
    rw [summarizeBatch_cons, List.filter_cons]
    cases h : llm (promptFor asin review_list) with
    | none => simpa [h] using ih
    | some s => simpa [h] using ih

/-! ## C1 -/

/-- C1: the summarization batch loop catches failures per product: the output
is exactly the (ASIN-overwritten) parsed records of the products whose call
and parse succeeded, in the iteration order of the input mapping; the output
length counts exactly the successes; and the loop never terminates early —
processing a concatenation processes both halves regardless of failures in
the first. -/
theorem summarizer_failure_isolation (llm : String → Option ParsedSummary)
    (dict : List (String × List String)) :
    summarizeBatch llm dict
      = dict.filterMap
          (fun p => (llm (promptFor p.1 p.2)).map (fun s => { s with ASIN := p.1 }))
    ∧ (summarizeBatch llm dict).length
        = (dict.filter (fun p => (llm (promptFor p.1 p.2)).isSome)).length
    ∧ ∀ d₁ d₂ : List (String × List String),
        summarizeBatch llm (d₁ ++ d₂)
          = summarizeBatch llm d₁ ++ summarizeBatch llm d₂ := by
  refine ⟨summarizeBatch_eq_filterMap llm dict, summarizeBatch_length llm dict, ?_⟩
  intro d₁ d₂
  rw [summarizeBatch_eq_filterMap, summarizeBatch_eq_filterMap,
    summarizeBatch_eq_filterMap, List.filterMap_append]

/-! ## C9 -/

/-- C9: every record collected by the batch loop has its `ASIN` field equal to
the product key the loop is iterating on — the ASINs of the output are, in
order, exactly the keys of the succeeding products, for every oracle `llm`
(in particular regardless of what `ASIN` the LLM's JSON contained). -/
theorem asin_overwrite_invariant (llm : String → Option ParsedSummary)
    (dict : List (String × List String)) :
    (summarizeBatch llm dict).map (fun s => s.ASIN)
      = (dict.filter (fun p => (llm (promptFor p.1 p.2)).isSome)).map
          (fun p => p.1) := by
  induction dict with
  | nil => rfl
  | cons p rest ih =>
    obtain ⟨asin, review_list⟩ := p
    rw [summarizeBatch_cons, List.filter_cons]
    cases h : llm (promptFor asin review_list) with
    | none => simpa [h] using ih
    | some s => simpa [h] using ih

/-! ## C4 -/

/-- C4: each summarization prompt embeds only `review_list[0:20]`: the prompt
is the template applied to the first 20 reviews (at most 20 of them), two
review lists agreeing on their first 20 entries produce the same prompt, and
the whole batch is invariant under discarding every review beyond the first
20 — reviews beyond the first 20 are never forwarded. -/
theorem truncation_to_20 (llm : String → Option ParsedSummary)
    (dict : List (String × List String)) :
    summarizeBatch llm (dict.map (fun p => (p.1, p.2.take 20)))
      = summarizeBatch llm dict
    ∧ (∀ (asin : String) (l₁ l₂ : List String),
        l₁.take 20 = l₂.take 20 → promptFor asin l₁ = promptFor asin l₂)
    ∧ (∀ (asin : String) (l : List String),
        promptFor asin l = template_format asin (l.take 20)
        ∧ (l.take 20).length ≤ 20) := by
  refine ⟨?_, ?_, ?_⟩
  · induction dict with
    | nil => rfl
    | cons p rest ih =>
      obtain ⟨asin, review_list⟩ := p
      rw [List.map_cons, summarizeBatch_cons, summarizeBatch_cons]
      have hp : promptFor asin (review_list.take 20) = promptFor asin review_list := by
        simp [promptFor, List.take_take]
      rw [hp]
      cases llm (promptFor asin review_list) with
      | none => exact ih
      | some s => rw [ih]
  · intro asin l₁ l₂ h
    unfold promptFor
    rw [h]
  · intro asin l
    exact ⟨rfl, by simp⟩

/-- Witness for C4 at a concrete input: two different 25- and 24-review lists
with the same first 20 entries yield the identical prompt. -/
theorem truncation_to_20_witness :
    promptFor "B001" (List.replicate 25 "nice") =
      promptFor "B001" (List.replicate 20 "nice" ++ List.replicate 4 "bad") := by
  refine (truncation_to_20 (fun _ => none) []).2.1 "B001" _ _ ?_
  decide

/-! ## C6 -/

theorem historyOpenaiFormat_eq_flatMap (history : List (String × String)) :
    historyOpenaiFormat history
      = history.flatMap (fun p => [⟨"user", p.1⟩, ⟨"assistant", p.2⟩]) := by
  induction history with
  | nil => rfl
  | cons p rest ih =>
    obtain ⟨human, assistant⟩ := p
    rw [List.flatMap_cons]
    simp [historyOpenaiFormat, ih]

theorem historyOpenaiFormat_length (history : List (String × String)) :
    (historyOpenaiFormat history).length = 2 * history.length := by
  induction history with
  | nil => rfl
  | cons p rest ih =>
    obtain ⟨human, assistant⟩ := p
    simp only [historyOpenaiFormat, List.length_cons, ih]
    omega

/-- C6: `predict` builds its request from `n` history pairs and a new message
as exactly the `2n` history messages — each pair contributing its user
message then its assistant message, verbatim and in order — followed by one
final user message holding the prompt-formatted new question; in particular
the list has exactly `2n + 1` messages. -/
theorem history_forwarding (query : String → Nat → List QueryObject)
    (message : String) (history : List (String × String)) :
    predictMessages query message history
      = history.flatMap (fun p => [⟨"user", p.1⟩, ⟨"assistant", p.2⟩])
        ++ [⟨"user", sales_template_format message (get_context query message 5)⟩]
    ∧ (predictMessages query message history).length = 2 * history.length + 1 := by
  constructor
  · unfold predictMessages
    rw [historyOpenaiFormat_eq_flatMap]
  · unfold predictMessages
    rw [List.length_append, historyOpenaiFormat_length, List.length_singleton]

/-! ## C2: ingestion-batching lemmas -/

theorem ingestLoop_flatten {α : Type} (rest : List α) :
    ∀ buf : List α, (ingestLoop buf rest).flatten = buf ++ rest := by
  induction rest with
  | nil =>
    intro buf
    by_cases h : buf.length > 0
    · simp [ingestLoop, h]
    · have hb : buf = [] := List.length_eq_zero.mp (by omega)
      simp [ingestLoop, h, hb]
  | cons d ds ih =>
    intro buf
    rw [ingestLoop]
    by_cases h : (buf ++ [d]).length = 100
    · rw [if_pos h, List.flatten_cons, ih []]
      simp
    · rw [if_neg h, ih (buf ++ [d])]
      simp

theorem ingestLoop_length {α : Type} (rest : List α) :
    ∀ buf : List α, buf.length < 100 →
      (ingestLoop buf rest).length = (buf.length + rest.length + 99) / 100 := by
  induction rest with
  | nil =>
    intro buf h
    by_cases h0 : buf.length > 0
    · rw [ingestLoop, if_pos h0]
      simp only [List.length_cons, List.length_nil]
      omega
    · rw [ingestLoop, if_neg h0]
      simp only [List.length_nil]
      omega
  | cons d ds ih =>
    intro buf h
    have hlen : (buf ++ [d]).length = buf.length + 1 := by simp
    rw [ingestLoop]
    by_cases h100 : (buf ++ [d]).length = 100
    · rw [if_pos h100, List.length_cons, ih [] (by simp)]
      rw [hlen] at h100
      simp only [List.length_nil, List.length_cons]
      omega
    · rw [hlen] at h100
      have hlt : (buf ++ [d]).length < 100 := by
        rw [hlen]; omega
      rw [if_neg (by rw [hlen]; exact h100), ih (buf ++ [d]) hlt, hlen]
      simp only [List.length_cons]
      omega

theorem ingestLoop_sizes {α : Type} (rest : List α) :
    ∀ buf : List α, buf.length < 100 →
      ∀ b ∈ ingestLoop buf rest, b.length ≤ 100 := by
  induction rest with
  | nil =>
    intro buf h b hb
    rw [ingestLoop] at hb
    by_cases h0 : buf.length > 0
    · rw [if_pos h0, List.mem_singleton] at hb
      subst hb
      omega
    · rw [if_neg h0] at hb
      exact absurd hb (List.not_mem_nil b)
  | cons d ds ih =>
    intro buf h b hb
    rw [ingestLoop] at hb
    by_cases h100 : (buf ++ [d]).length = 100
    · rw [if_pos h100, List.mem_cons] at hb
      rcases hb with hb | hb
      · subst hb
        omega
      · exact ih [] (by simp) b hb
    · have hlt : (buf ++ [d]).length < 100 := by
        simp only [List.length_append, List.length_cons, List.length_nil] at h100 ⊢
        omega
      rw [if_neg h100] at hb
      exact ih (buf ++ [d]) hlt b hb

theorem ingestLoop_getLast {α : Type} (rest : List α) :
    ∀ buf : List α, buf.length < 100 → buf.length + rest.length ≠ 0 →
      ∃ b, (ingestLoop buf rest).getLast? = some b ∧
        b.length = if (buf.length + rest.length) % 100 = 0 then 100
                   else (buf.length + rest.length) % 100 := by
  induction rest with
  | nil =>
    intro buf h hn
    simp only [List.length_nil, Nat.add_zero] at hn ⊢
    rw [ingestLoop, if_pos (Nat.pos_of_ne_zero hn)]
    refine ⟨buf, by simp, ?_⟩
    rw [if_neg (by omega)]
    omega
  | cons d ds ih =>
    intro buf h hn
    have hlen : (buf ++ [d]).length = buf.length + 1 := by simp
    rw [ingestLoop]
    by_cases h100 : (buf ++ [d]).length = 100
    · rw [if_pos h100]
      rw [hlen] at h100
      by_cases hds : ds.length = 0
      · have hds' : ds = [] := List.length_eq_zero.mp hds
        subst hds'
        rw [show ingestLoop ([] : List α) [] = [] from rfl]
        refine ⟨buf ++ [d], by simp, ?_⟩
        simp only [List.length_cons, List.length_nil]
        rw [if_pos (by omega), hlen]
        omega
      · obtain ⟨b, hb1, hb2⟩ := ih [] (by simp) (by simpa using hds)
        refine ⟨b, ?_, ?_⟩
        · cases hl : ingestLoop ([] : List α) ds with
          | nil =>
            rw [hl] at hb1
            exact absurd hb1 (by simp)
          | cons x xs =>
            rw [hl] at hb1
            rw [List.getLast?_cons_cons]
            exact hb1
        · have hb2' : b.length = if ds.length % 100 = 0 then 100
              else ds.length % 100 := by simpa using hb2
          simp only [List.length_cons]
          have harith : (buf.length + (ds.length + 1)) % 100 = ds.length % 100 := by
            omega
          rw [harith]
          exact hb2'
    · rw [if_neg h100]
      rw [hlen] at h100
      have hlt : (buf ++ [d]).length < 100 := by
        rw [hlen]; omega
      obtain ⟨b, hb1, hb2⟩ := ih (buf ++ [d]) hlt (by rw [hlen]; omega)
      refine ⟨b, hb1, ?_⟩
      rw [hlen] at hb2
      have harith : buf.length + 1 + ds.length = buf.length + (ds.length + 1) := by
        omega
      rw [harith] at hb2
      simpa using hb2

/-- C2: ingesting `N` records makes exactly `⌈N / 100⌉ = (N + 99) / 100`
`insert_many` calls; every call carries at most 100 items; the calls carry
exactly the input records, in order; and the last call carries `N % 100`
items — or `100` when `N` is a positive exact multiple of 100. -/
theorem ingestion_batching (records : List InsertItem) :
    (insertCalls records).length = (records.length + 99) / 100
    ∧ (∀ b ∈ insertCalls records, b.length ≤ 100)
    ∧ (insertCalls records).flatten = records
    ∧ (∀ b, (insertCalls records).getLast? = some b →
        b.length = if records.length % 100 = 0 then 100 else records.length % 100) := by
  refine ⟨?_, ?_, ?_, ?_⟩
  · simpa using ingestLoop_length records [] (by simp)
  · exact ingestLoop_sizes records [] (by simp)
  · simpa using ingestLoop_flatten records []
  · intro b hb
    by_cases hr : records = []
    · subst hr
      rw [show insertCalls ([] : List InsertItem) = [] from rfl] at hb
      exact absurd hb (by simp)
    · have hn : records.length ≠ 0 := fun hc => hr (List.length_eq_zero.mp hc)
      obtain ⟨b', hb1, hb2⟩ := ingestLoop_getLast records [] (by simp) (by simpa using hn)
      rw [show insertCalls records = ingestLoop [] records from rfl, hb1] at hb
      obtain rfl : b' = b := by injection hb
      simpa using hb2

/-- A concrete record for witnesses. -/
def sampleItem : InsertItem :=
  ⟨"B000EL6I8W", "guitar case", "a case", "sturdy", "well liked"⟩

/-- Witness for C2 at a concrete input: 5 records yield one `insert_many`
call carrying all 5 records, whose size is `5 % 100`. -/
theorem ingestion_batching_witness :
    (insertCalls (List.replicate 5 sampleItem)).length = (5 + 99) / 100
    ∧ (List.replicate 5 sampleItem).length ≤ 100
    ∧ (List.replicate 5 sampleItem).length
        = if (List.replicate 5 sampleItem).length % 100 = 0 then 100
          else (List.replicate 5 sampleItem).length % 100 := by
  refine ⟨?_, ?_, ?_⟩
  · simpa using (ingestion_batching (List.replicate 5 sampleItem)).1
  · exact (ingestion_batching (List.replicate 5 sampleItem)).2.1
      (List.replicate 5 sampleItem)
      (by rw [show insertCalls (List.replicate 5 sampleItem)
                = [List.replicate 5 sampleItem] from rfl]
          exact List.mem_singleton.mpr rfl)
  · exact (ingestion_batching (List.replicate 5 sampleItem)).2.2.2
      (List.replicate 5 sampleItem) rfl

/-! ## C7 -/

/-- C7: the ingestion cell wraps no `insert_many` call in a `try`: if the
calls for the batches `pre` succeed and the call for `bad` raises, then the
run attempted exactly `pre ++ [bad]` (no batch after the failing one is ever
submitted), the store holds exactly the batches `pre` already submitted, and
the exception propagates to the caller as the outcome. -/
theorem ingestion_failure_propagation {α : Type}
    (ins : List α → Except String Unit)
    (pre post : List (List α)) (bad : List α) (e : String)
    (hpre : ∀ b ∈ pre, ins b = Except.ok ())
    (hbad : ins bad = Except.error e) :
    runInserts ins (pre ++ bad :: post) = (pre ++ [bad], pre, Except.error e) := by
  induction pre with
  | nil =>
    simp only [List.nil_append]
    rw [runInserts]
    rw [hbad]
  | cons p ps ih =>
    have hp : ins p = Except.ok () := hpre p (List.mem_cons_self p ps)
    rw [List.cons_append, runInserts, hp]
    rw [ih (fun b hb => hpre b (List.mem_cons_of_mem p hb))]
    rfl

/-- Witness for C7 at a concrete input: with a store that raises exactly on
the empty batch, two good batches followed by the empty batch and one more
batch attempt only the first three calls, keep the two good batches, and
surface the exception. -/
theorem ingestion_failure_propagation_witness :
    runInserts (fun b : List Nat => if b.isEmpty then Except.error "boom" else Except.ok ())
        ([[1], [2]] ++ [] :: [[3]])
      = ([[1], [2]] ++ [[]], [[1], [2]], Except.error "boom") := by
  refine ingestion_failure_propagation _ [[1], [2]] [[3]] [] "boom" ?_ ?_
  · intro b hb
    rcases List.mem_cons.mp hb with rfl | hb
    · rfl
    · rcases List.mem_cons.mp hb with rfl | hb
      · rfl
      · exact absurd hb (List.not_mem_nil b)
  · rfl

/-! ## C5 -/

theorem joinNl_count (l : List String) :
    (∀ s ∈ l, s.data.count '\n' = 0) → l ≠ [] →
    (joinNl l).data.count '\n' = l.length - 1 := by
  induction l with
  | nil =>
    intro _ h
    exact absurd rfl h
  | cons s rest ih =>
    intro hall _
    cases rest with
    | nil => simpa using hall s (by simp)
    | cons s' rest' =>
      rw [show joinNl (s :: s' :: rest') = s ++ "\n" ++ joinNl (s' :: rest') from rfl]
      rw [show (s ++ "\n" ++ joinNl (s' :: rest')).data
            = s.data ++ ("\n" : String).data ++ (joinNl (s' :: rest')).data by
          simp [String.data_append]]
      rw [List.count_append, List.count_append]
      have h1 : s.data.count '\n' = 0 := hall s (by simp)
      have h2 : (joinNl (s' :: rest')).data.count '\n' = (s' :: rest').length - 1 :=
        ih (fun t ht => hall t (List.mem_cons_of_mem s ht)) (by simp)
      have h3 : (("\n" : String).data).count '\n' = 1 := by decide
      rw [h1, h2, h3]
      simp only [List.length_cons]
      omega

/-- C5: `get_context` issues its single hybrid query at exactly
`(question, limit)` — its output depends only on the value of the query at
that pair — and joins one textual property dump per returned object with
newlines: there is one entry per result, at most `K` of them when the store
honours the limit, and (dumps being newline-free) exactly `m - 1` newline
separators for `m` returned results. -/
theorem context_construction (query : String → Nat → List QueryObject)
    (question : String) (K : Nat)
    (hK : (query question K).length ≤ K) :
    get_context query question K
      = joinNl ((query question K).map (fun o => o.properties))
    ∧ ((query question K).map (fun o => o.properties)).length
        = (query question K).length
    ∧ (query question K).length ≤ K
    ∧ (∀ query' : String → Nat → List QueryObject,
        query question K = query' question K →
        get_context query question K = get_context query' question K)
    ∧ ((∀ o ∈ query question K, o.properties.data.count '\n' = 0) →
        query question K ≠ [] →
        (get_context query question K).data.count '\n'
          = (query question K).length - 1) := by
  refine ⟨rfl, List.length_map _ _, hK, ?_, ?_⟩
  · intro query' hq
    unfold get_context
    rw [hq]
  · intro hnl hne
    have hcount := joinNl_count ((query question K).map (fun o => o.properties))
      (fun s hs => by
        obtain ⟨o, ho, rfl⟩ := List.mem_map.mp hs
        exact hnl o ho)
      (by simpa using hne)
    rw [List.length_map] at hcount
    exact hcount

/-- Witness for C5 at a concrete input: a store returning two newline-free
dumps for limit 3 yields the two entries joined by a single newline. -/
theorem context_construction_witness :
    get_context (fun _ _ => ([⟨"a"⟩, ⟨"b"⟩] : List QueryObject)) "q" 3 = "a\nb"
    ∧ (get_context (fun _ _ => ([⟨"a"⟩, ⟨"b"⟩] : List QueryObject)) "q" 3).data.count '\n'
        = 1 := by
  constructor
  · rfl
  · simpa using
      (context_construction (fun _ _ => ([⟨"a"⟩, ⟨"b"⟩] : List QueryObject)) "q" 3
        (by decide)).2.2.2.2 (by decide) (by decide)

/-! ## C3: aggregator lemmas -/

theorem uniqueAsinsAux_not_mem_seen (df : List Review) :
    ∀ seen, ∀ a ∈ uniqueAsinsAux seen df, a ∉ seen := by
  induction df with
  | nil =>
    intro seen a ha
    exact absurd ha (List.not_mem_nil a)
  | cons r rest ih =>
    intro seen a ha
    rw [uniqueAsinsAux] at ha
    by_cases hr : r.asin ∈ seen
    · rw [if_pos hr] at ha
      exact ih seen a ha
    · rw [if_neg hr] at ha
      rcases List.mem_cons.mp ha with rfl | ha
      · exact hr
      · intro hcon
        exact ih (r.asin :: seen) a ha (List.mem_cons_of_mem _ hcon)

theorem uniqueAsinsAux_nodup (df : List Review) :
    ∀ seen, (uniqueAsinsAux seen df).Nodup := by
  induction df with
  | nil =>
    intro seen
    simp [uniqueAsinsAux]
  | cons r rest ih =>
    intro seen
    rw [uniqueAsinsAux]
    by_cases hr : r.asin ∈ seen
    · rw [if_pos hr]
      exact ih seen
    · rw [if_neg hr]
      refine List.nodup_cons.mpr ⟨?_, ih _⟩
      intro hmem
      exact uniqueAsinsAux_not_mem_seen rest (r.asin :: seen) r.asin hmem
        (List.mem_cons_self _ _)

theorem uniqueAsinsAux_sublist (df : List Review) :
    ∀ seen, (uniqueAsinsAux seen df).Sublist (df.map (fun r => r.asin)) := by
  induction df with
  | nil =>
    intro seen
    simp [uniqueAsinsAux]
  | cons r rest ih =>
    intro seen
    rw [uniqueAsinsAux, List.map_cons]
    by_cases hr : r.asin ∈ seen
    · rw [if_pos hr]
      exact (ih seen).cons _
    · rw [if_neg hr]
      exact (ih _).cons₂ _

theorem uniqueAsinsAux_mem (df : List Review) :
    ∀ seen a, a ∉ seen →
      (a ∈ uniqueAsinsAux seen df ↔ a ∈ df.map (fun r => r.asin)) := by
  induction df with
  | nil =>
    intro seen a _
    simp [uniqueAsinsAux]
  | cons r rest ih =>
    intro seen a ha
    rw [uniqueAsinsAux, List.map_cons]
    by_cases hr : r.asin ∈ seen
    · rw [if_pos hr, ih seen a ha, List.mem_cons]
      constructor
      · exact Or.inr
      · rintro (rfl | h)
        · exact absurd hr ha
        · exact h
    · rw [if_neg hr, List.mem_cons, List.mem_cons]
      by_cases hra : a = r.asin
      · subst hra
        simp
      · rw [ih (r.asin :: seen) a
          (by
            intro hc
            rcases List.mem_cons.mp hc with h | h
            · exact hra h
            · exact ha h)]

/-- C3: the aggregated `review_dict` has as keys exactly the first `L`
distinct ASINs of the dataset in dataset order (so
`min L (number of distinct ASINs)` of them: `uniqueAsins df` is duplicate
free, is a subsequence of the dataset's ASIN column, and contains exactly
the ASINs occurring in the dataset); each key maps to precisely that
product's reviews, sorted by timestamp descending; and an empty dataset
yields an empty mapping. -/
theorem review_aggregator_contract (df : List Review) (L : Nat) :
    (reviewDict df L).map Prod.fst = (uniqueAsins df).take L
    ∧ (reviewDict df L).length = min L (uniqueAsins df).length
    ∧ (uniqueAsins df).Nodup
    ∧ (uniqueAsins df).Sublist (df.map (fun r => r.asin))
    ∧ (∀ a, a ∈ uniqueAsins df ↔ a ∈ df.map (fun r => r.asin))
    ∧ (∀ p ∈ reviewDict df L, List.Sorted byRecency p.2
        ∧ p.2.Perm (df.filter (fun r => r.asin = p.1)))
    ∧ reviewDict [] L = [] := by
  refine ⟨?_, ?_, uniqueAsinsAux_nodup df [], uniqueAsinsAux_sublist df [],
    fun a => uniqueAsinsAux_mem df [] a (List.not_mem_nil a), ?_,
    by simp [reviewDict, uniqueAsins, uniqueAsinsAux]⟩
  · unfold reviewDict
    rw [List.map_map]
    have hcomp : (Prod.fst ∘ fun asin => (asin, reviewsFor df asin))
        = (id : String → String) := by
      funext a
      rfl
    rw [hcomp, List.map_id]
  · unfold reviewDict
    rw [List.length_map, List.length_take]
  · intro p hp
    unfold reviewDict at hp
    obtain ⟨a, _, rfl⟩ := List.mem_map.mp hp
    exact ⟨List.sorted_insertionSort byRecency _, List.perm_insertionSort byRecency _⟩

/-- A concrete three-row dataset (two products) for the C3 witness. -/
def dfW : List Review := [⟨"A", "r1", 5⟩, ⟨"B", "r2", 3⟩, ⟨"A", "r3", 9⟩]

/-- Witness for C3 at a concrete input: on a 3-row, 2-product dataset with
limit 2, membership of `"A"` among the keys matches its occurrence in the
dataset, and product `"A"`'s stored group is its two reviews sorted by
timestamp descending. -/
theorem review_aggregator_contract_witness :
    ("A" ∈ uniqueAsins dfW ↔ "A" ∈ dfW.map (fun r => r.asin))
    ∧ (List.Sorted byRecency [⟨"A", "r3", 9⟩, ⟨"A", "r1", 5⟩]
        ∧ List.Perm ([⟨"A", "r3", 9⟩, ⟨"A", "r1", 5⟩] : List Review)
            (dfW.filter (fun r => r.asin = "A"))) := by
  refine ⟨(review_aggregator_contract dfW 2).2.2.2.2.1 "A", ?_⟩
  exact (review_aggregator_contract dfW 2).2.2.2.2.2.1
    ("A", [⟨"A", "r3", 9⟩, ⟨"A", "r1", 5⟩])
    (by
      rw [show reviewDict dfW 2
            = [("A", reviewsFor dfW "A"), ("B", reviewsFor dfW "B")] from rfl]
      rw [show reviewsFor dfW "A" = [⟨"A", "r3", 9⟩, ⟨"A", "r1", 5⟩] from rfl]
      exact List.mem_cons_self _ _)

/-! ## C8 -/

/-- A dataset whose single product has 21 reviews. -/
def df21 : List Review := (List.range 21).map (fun i => ⟨"A", "r", (i : Int)⟩)

/-- C8 counterexample: the aggregator stage performs no truncation — for the
concrete dataset `df21`, whose one product has 21 reviews, the stored group
of the sole key of `review_dict` has 21 > 20 entries, so the stage does not
truncate each group to the 20 (= the spec's `N`) most recent reviews. -/
theorem aggregator_truncation_counterexample :
    (reviewDict df21 1).map (fun p => p.2.length) = [21] ∧ ¬ (21 ≤ 20) := by
  constructor
  · rfl
  · decide

/-- C8 amended: the Review Aggregator itself does not truncate: each stored
group contains all of that product's reviews (as many entries as the dataset
has rows for that ASIN); the truncation to the 20 most recent happens only
later, when the Summarizer builds its prompt. -/
theorem aggregator_no_truncation (df : List Review) (L : Nat) (a : String)
    (rs : List Review) (h : (a, rs) ∈ reviewDict df L) :
    rs.length = (df.filter (fun r => r.asin = a)).length := by
  unfold reviewDict at h
  obtain ⟨x, _, hpair⟩ := List.mem_map.mp h
  injection hpair with h1 h2
  subst h1
  subst h2
  exact (List.perm_insertionSort byRecency _).length_eq

/-- Witness for C8's amended claim at a concrete input: for `df21`'s product
`"A"` the stored group is as long as the product's full review list. -/
theorem aggregator_no_truncation_witness :
    (reviewsFor df21 "A").length
      = (df21.filter (fun r => r.asin = "A")).length := by
  exact aggregator_no_truncation df21 1 "A" (reviewsFor df21 "A")
    (by
      rw [show reviewDict df21 1 = [("A", reviewsFor df21 "A")] from rfl]
      exact List.mem_singleton.mpr rfl)

/-! ## C10: streaming lemmas -/

theorem streamGo_characterization (chunks : List (Option String)) :
    ∀ acc, streamGo acc chunks
      = (List.range (chunks.filterMap id).length).map
          (fun k => ((chunks.filterMap id).take (k + 1)).foldl (· ++ ·) acc) := by
  induction chunks with
  | nil =>
    intro acc
    rfl
  | cons c rest ih =>
    intro acc
    cases c with
    | none =>
      rw [show streamGo acc (none :: rest) = streamGo acc rest from rfl, ih acc]
      rw [show (none :: rest).filterMap (id : Option String → Option String)
            = rest.filterMap id from by simp]
    | some s =>
      rw [show streamGo acc (some s :: rest)
            = (acc ++ s) :: streamGo (acc ++ s) rest from rfl, ih (acc ++ s)]
      rw [show (some s :: rest).filterMap (id : Option String → Option String)
            = s :: rest.filterMap id from by simp]
      rw [List.length_cons, List.range_succ_eq_map, List.map_cons, List.map_map]
      rfl

theorem filterMap_id_length_eq_countP (chunks : List (Option String)) :
    (chunks.filterMap id).length = chunks.countP (fun o => o.isSome) := by
  induction chunks with
  | nil => rfl
  | cons c rest ih =>
    cases c <;> simp [List.filterMap_cons, List.countP_cons, ih]

/-- C10: `predict` yields one value per chunk whose delta content is not
`None`; the `k`-th yielded value is the concatenation of the first `k + 1`
non-`None` contents; and each yielded value extends the previous one — the
previously yielded string is a prefix of the next. -/
theorem streaming_monotonicity (chunks : List (Option String)) :
    streamYields chunks
      = (List.range (chunks.filterMap id).length).map
          (fun k => String.join ((chunks.filterMap id).take (k + 1)))
    ∧ (streamYields chunks).length = chunks.countP (fun o => o.isSome)
    ∧ ∀ k, k + 1 < (streamYields chunks).length →
        ∃ a b t, (streamYields chunks)[k]? = some a
          ∧ (streamYields chunks)[k + 1]? = some b
          ∧ a ++ t = b := by
  have hchar := streamGo_characterization chunks ""
  have hlen : (streamYields chunks).length = (chunks.filterMap id).length := by
    rw [show streamYields chunks = _ from hchar, List.length_map, List.length_range]
  refine ⟨hchar, by rw [hlen, filterMap_id_length_eq_countP], ?_⟩
  intro k hk
  rw [hlen] at hk
  have hk0 : k < (chunks.filterMap id).length := by omega
  have hget : ∀ j, j < (chunks.filterMap id).length →
      (streamYields chunks)[j]?
        = some (((chunks.filterMap id).take (j + 1)).foldl (· ++ ·) "") := by
    intro j hj
    rw [show streamYields chunks = _ from hchar, List.getElem?_map,
      List.getElem?_range hj]
    rfl
  refine ⟨((chunks.filterMap id).take (k + 1)).foldl (· ++ ·) "",
    ((chunks.filterMap id).take (k + 2)).foldl (· ++ ·) "",
    (chunks.filterMap id)[k + 1], hget k hk0, ?_, ?_⟩
  · exact hget (k + 1) hk
  · rw [show (chunks.filterMap id).take (k + 2)
        = (chunks.filterMap id).take (k + 1)
            ++ ((chunks.filterMap id)[k + 1]?).toList from List.take_succ,
      List.getElem?_eq_getElem hk, List.foldl_append]
    rfl

/-- Witness for C10 at a concrete input: for chunks
`[some "He", none, some "llo"]` the second yield exists and extends the
first. -/
theorem streaming_monotonicity_witness :
    ∃ a b t, (streamYields [some "He", none, some "llo"])[0]? = some a
      ∧ (streamYields [some "He", none, some "llo"])[0 + 1]? = some b
      ∧ a ++ t = b := by
  exact (streaming_monotonicity [some "He", none, some "llo"]).2.2 0 (by decide)

end SalesBot
